import Mathlib

/-!
Verification of the La-Vak LAN file-transfer core against its specification.

The development shallowly embeds the JavaScript source of the repository:

* src/server/transport.js — wire framing (encodeMessage, MessageReader),
  the sender state machine (sendFile, doSend, streamFile) and the receiver
  state machine (handleIncoming);
* src/server/discovery.js — the peer-table sweep (startCleanup);
* src/server/security.js — the AES-256-GCM chunk seal/open pair
  (encryptChunk, decryptChunk).

Buffers are modelled as lists of natural numbers (one entry per byte);
machine arithmetic that matters (the 32-bit big-endian length fields) is
made explicit.  Node built-in primitives that the repository merely calls
(AES-256-GCM, JSON, SHA-256) are abstracted as parameters of the
definitions that use them, with their defining structure (CTR keystream
XOR plus authentication tag for GCM) kept explicit.
-/

namespace LaVak

/-! ### Big-endian 32-bit integers (Buffer.writeUInt32BE / readUInt32BE) -/

/-- Model of Buffer.writeUInt32BE: the four big-endian bytes of a 32-bit
value.  The JavaScript call throws for values at or above 2^32; the claims
only ever use it below that bound. -/
def writeUInt32BE (n : Nat) : List Nat :=
  [n / 16777216 % 256, n / 65536 % 256, n / 256 % 256, n % 256]

/-- Model of Buffer.readUInt32BE at offset 0.  Out-of-range reads are a
separate concern (see the reader loop); here missing bytes default to 0. -/
def readUInt32BE (b : List Nat) : Nat :=
  b.getD 0 0 * 16777216 + b.getD 1 0 * 65536 + b.getD 2 0 * 256 + b.getD 3 0

theorem length_writeUInt32BE (n : Nat) : (writeUInt32BE n).length = 4 := rfl

theorem readUInt32BE_writeUInt32BE (n : Nat) (rest : List Nat) (h : n < 4294967296) :
    readUInt32BE (writeUInt32BE n ++ rest) = n := by
  simp only [writeUInt32BE, readUInt32BE, List.cons_append, List.getD,
    List.get?_eq_getElem?, List.getElem?_cons_zero, List.getElem?_cons_succ,
    Option.getD_some]
  omega

theorem readUInt32BE_append (l t : List Nat) (h : 4 ≤ l.length) :
    readUInt32BE (l ++ t) = readUInt32BE l := by
  rcases l with _ | ⟨a, _ | ⟨b, _ | ⟨c, _ | ⟨d, rest⟩⟩⟩⟩ <;>
    simp_all [readUInt32BE, List.getD, List.get?_eq_getElem?]

theorem writeUInt32BE_injOn (i j : Nat) (hi : i < 4294967296) (hj : j < 4294967296)
    (h : writeUInt32BE i = writeUInt32BE j) : i = j := by
  have h1 : readUInt32BE (writeUInt32BE i ++ []) = i := readUInt32BE_writeUInt32BE i [] hi
  have h2 : readUInt32BE (writeUInt32BE j ++ []) = j := readUInt32BE_writeUInt32BE j [] hj
  rw [h] at h1
  omega

/-! ### Discovery sweep (discovery.js, startCleanup) -/

/-- Constant PEER_TIMEOUT from discovery.js (milliseconds). -/
def PEER_TIMEOUT : Nat := 10000

/-- Constant BROADCAST_INTERVAL from discovery.js (milliseconds). -/
def BROADCAST_INTERVAL : Nat := 3000

/-- The cleanup timer period: setInterval(..., PEER_TIMEOUT / 2). -/
def sweepInterval : Nat := PEER_TIMEOUT / 2

/-- A peer-map entry: opaque peer payload plus the lastSeen timestamp. -/
structure PeerEntry (α : Type) where
  info : α
  lastSeen : Nat
  deriving DecidableEq, Repr

/-- Events emitted by the discovery sweep. -/
inductive DiscEv (α : Type) where
  | peerLeft (p : PeerEntry α)
  | peersUpdated
  deriving DecidableEq, Repr

/-- Staleness test from startCleanup: now - peer.lastSeen > PEER_TIMEOUT.
Natural subtraction truncates at zero exactly where the JavaScript
difference would be negative, and both fail the strict comparison. -/
def stale (now : Nat) (p : PeerEntry α) : Bool :=
  decide (now - p.lastSeen > PEER_TIMEOUT)

/-- One pass of the for-of loop in startCleanup: delete stale entries,
emitting peer-left for each, in table order. -/
def sweepGo (now : Nat) : List (PeerEntry α) → List (PeerEntry α) × List (DiscEv α)
  | [] => ([], [])
  | p :: ps =>
    let r := sweepGo now ps
    if stale now p then (r.1, DiscEv.peerLeft p :: r.2) else (p :: r.1, r.2)

/-- One sweep of startCleanup: the loop, then a single peers-updated event
when anything changed. -/
def sweep (now : Nat) (peers : List (PeerEntry α)) : List (PeerEntry α) × List (DiscEv α) :=
  let r := sweepGo now peers
  (r.1, r.2 ++ if r.2.isEmpty then [] else [DiscEv.peersUpdated])

theorem sweepGo_eq_filter (now : Nat) (peers : List (PeerEntry α)) :
    sweepGo now peers =
      (peers.filter (fun p => !stale now p),
       (peers.filter (stale now)).map DiscEv.peerLeft) := by
  induction peers with
  | nil => rfl
  | cons p ps ih =>
    simp only [sweepGo, ih, List.filter_cons]
    cases h : stale now p <;> simp [h]

/-- Claim C7: each sweep runs every PEER_TIMEOUT/2 = 5 s, removes exactly
the entries with now - lastSeen > PEER_TIMEOUT = 10 s, emits one peer-left
per removed entry (in table order), and emits a single peers-updated event
if and only if at least one entry was removed. -/
theorem C7_discovery_sweep (α : Type) (now : Nat) (peers : List (PeerEntry α)) :
    sweep now peers =
      (peers.filter (fun p => !stale now p),
       (peers.filter (stale now)).map DiscEv.peerLeft ++
         if (peers.filter (stale now)).isEmpty then [] else [DiscEv.peersUpdated]) ∧
    (∀ p ∈ peers, stale now p = decide (now - p.lastSeen > 10000)) ∧
    sweepInterval = 5000 ∧ PEER_TIMEOUT = 10000 := by
  refine ⟨?_, fun p _ => rfl, rfl, rfl⟩
  simp only [sweep, sweepGo_eq_filter]
  rcases h : peers.filter (stale now) with _ | ⟨q, qs⟩ <;> simp [h]

/-! ### AES-256-GCM chunk pipeline (security.js, encryptChunk / decryptChunk)

The repository calls the Node built-in AES-256-GCM cipher.  GCM is CTR
mode (a keystream derived from key and nonce, XORed into the data) plus
an authentication tag computed over the ciphertext under the same key and
nonce.  The block cipher itself is external to the repository, so the
keystream and the tag function are parameters here; everything the
repository's code contributes (the XOR structure, the tag placement, the
tag check on open) is explicit. -/

/-- XOR a keystream (one byte per position, starting at a given counter)
into a byte list — the CTR-mode core of AES-GCM. -/
def ctrXor (ksf : Nat → Nat) : Nat → List Nat → List Nat
  | _, [] => []
  | i, b :: bs => (b ^^^ ksf i) :: ctrXor ksf (i + 1) bs

theorem ctrXor_ctrXor (ksf : Nat → Nat) (i : Nat) (l : List Nat) :
    ctrXor ksf i (ctrXor ksf i l) = l := by
  induction l generalizing i with
  | nil => rfl
  | cons b bs ih =>
    simp only [ctrXor, ih, List.cons.injEq, and_true]
    rw [Nat.xor_assoc, Nat.xor_self, Nat.xor_zero]

/-- Model of security.encryptChunk: AES-256-GCM seal, returning
(ciphertext, authTag).  ks gives the keystream byte at each position for
a given key and nonce; gtag gives the 16-byte tag over the ciphertext. -/
def encryptChunk (ks : List Nat → List Nat → Nat → Nat)
    (gtag : List Nat → List Nat → List Nat → List Nat)
    (key iv plaintext : List Nat) : List Nat × List Nat :=
  let ciphertext := ctrXor (ks key iv) 0 plaintext
  (ciphertext, gtag key iv ciphertext)

/-- Model of security.decryptChunk: AES-256-GCM open.  Recomputes the tag
over the ciphertext; on mismatch the Node decipher throws, modelled as
none. -/
def decryptChunk (ks : List Nat → List Nat → Nat → Nat)
    (gtag : List Nat → List Nat → List Nat → List Nat)
    (key iv ciphertext authTag : List Nat) : Option (List Nat) :=
  if gtag key iv ciphertext = authTag then some (ctrXor (ks key iv) 0 ciphertext) else none

/-- Claim C9: AEAD round-trip — for every 32-byte key, 12-byte iv and any
plaintext, opening the sealed chunk under the same key and iv returns the
plaintext, for every instantiation of the GCM keystream and tag functions. -/
theorem C9_aead_round_trip (ks : List Nat → List Nat → Nat → Nat)
    (gtag : List Nat → List Nat → List Nat → List Nat)
    (key iv plaintext : List Nat)
    (_hkey : key.length = 32) (_hiv : iv.length = 12) :
    decryptChunk ks gtag key iv
      (encryptChunk ks gtag key iv plaintext).1
      (encryptChunk ks gtag key iv plaintext).2 = some plaintext := by
  simp [decryptChunk, encryptChunk, ctrXor_ctrXor]

/-- Witness for C9 at a concrete key, iv and plaintext. -/
theorem C9_aead_round_trip_witness :
    (List.replicate 32 0 : List Nat).length = 32 ∧
    (List.replicate 12 1 : List Nat).length = 12 ∧
    decryptChunk (fun _ _ i => i + 5) (fun _ _ c => c ++ [7])
      (List.replicate 32 0) (List.replicate 12 1)
      (encryptChunk (fun _ _ i => i + 5) (fun _ _ c => c ++ [7])
        (List.replicate 32 0) (List.replicate 12 1) [10, 20, 30]).1
      (encryptChunk (fun _ _ i => i + 5) (fun _ _ c => c ++ [7])
        (List.replicate 32 0) (List.replicate 12 1) [10, 20, 30]).2 = some [10, 20, 30] :=
  ⟨by decide, by decide,
    C9_aead_round_trip (fun _ _ i => i + 5) (fun _ _ c => c ++ [7])
      (List.replicate 32 0) (List.replicate 12 1) [10, 20, 30] (by decide) (by decide)⟩

/-! ### Per-chunk IV derivation (transport.js, streamFile and handleIncoming) -/

/-- Model of the three lines shared by streamFile and handleIncoming:
Buffer.alloc(12) zero-filled, iv.copy(chunkIv) copying min(iv.length, 12)
bytes, then writeUInt32BE(index, 8) overwriting bytes 8..11. -/
def chunkIv (iv : List Nat) (index : Nat) : List Nat :=
  ((iv.take 12 ++ List.replicate (12 - iv.length) 0).take 8) ++ writeUInt32BE index

theorem chunkIv_eq (iv : List Nat) (index : Nat) (hiv : iv.length = 12) :
    chunkIv iv index = iv.take 8 ++ writeUInt32BE index := by
  simp [chunkIv, hiv, List.take_take]

theorem length_chunkIv (iv : List Nat) (index : Nat) (hiv : iv.length = 12) :
    (chunkIv iv index).length = 12 := by
  rw [chunkIv_eq iv index hiv]
  simp [hiv, length_writeUInt32BE]

theorem chunkIv_inj (iv : List Nat) (i j : Nat)
    (hi : i < 4294967296) (hj : j < 4294967296)
    (h : chunkIv iv i = chunkIv iv j) : i = j := by
  have h' : (iv.take 12 ++ List.replicate (12 - iv.length) 0).take 8 ++ writeUInt32BE i =
      (iv.take 12 ++ List.replicate (12 - iv.length) 0).take 8 ++ writeUInt32BE j := h
  exact writeUInt32BE_injOn i j hi hj (List.append_cancel_left h')

/-! ### Sender chunk stream (transport.js, streamFile) -/

/-- One data message as framed by streamFile: header fields index,
authTag, chunkSize, plus the ciphertext payload.  The derived IV is
recorded alongside for the nonce-uniqueness statements. -/
structure DataMsg where
  index : Nat
  iv : List Nat
  authTag : List Nat
  chunkSize : Nat
  ciphertext : List Nat
  deriving DecidableEq, Repr

/-- The readStream data handler of streamFile, started at a given chunk
index: derive the per-chunk IV, seal the chunk, emit the data message,
and advance chunkIndex by one. -/
def streamFileGo (ks : List Nat → List Nat → Nat → Nat)
    (gtag : List Nat → List Nat → List Nat → List Nat)
    (key iv : List Nat) : Nat → List (List Nat) → List DataMsg
  | _, [] => []
  | i, c :: cs =>
    let civ := chunkIv iv i
    let sealed := encryptChunk ks gtag key civ c
    ⟨i, civ, sealed.2, sealed.1.length, sealed.1⟩ ::
      streamFileGo ks gtag key iv (i + 1) cs

/-- streamFile over the file's chunk sequence: chunkIndex starts at 0. -/
def streamFileMsgs (ks : List Nat → List Nat → Nat → Nat)
    (gtag : List Nat → List Nat → List Nat → List Nat)
    (key iv : List Nat) (chunks : List (List Nat)) : List DataMsg :=
  streamFileGo ks gtag key iv 0 chunks

theorem streamFileGo_indices (ks : List Nat → List Nat → Nat → Nat)
    (gtag : List Nat → List Nat → List Nat → List Nat)
    (key iv : List Nat) (i : Nat) (chunks : List (List Nat)) :
    (streamFileGo ks gtag key iv i chunks).map DataMsg.index =
      List.range' i chunks.length := by
  induction chunks generalizing i with
  | nil => rfl
  | cons c cs ih => simp [streamFileGo, ih, List.range'_succ]

theorem streamFileGo_ivs (ks : List Nat → List Nat → Nat → Nat)
    (gtag : List Nat → List Nat → List Nat → List Nat)
    (key iv : List Nat) (i : Nat) (chunks : List (List Nat)) :
    (streamFileGo ks gtag key iv i chunks).map DataMsg.iv =
      (List.range' i chunks.length).map (chunkIv iv) := by
  induction chunks generalizing i with
  | nil => rfl
  | cons c cs ih => simp [streamFileGo, ih, List.range'_succ]

/-- Claim C3: the IV for chunk i is the 12-byte base IV with its last 4
bytes overwritten by i as a big-endian unsigned 32-bit integer; the chunk
index starts at 0 and increases by exactly 1 per chunk; and within a
session of fewer than 2^32 chunks all data-message IVs are pairwise
distinct. -/
theorem C3_chunk_iv (ks : List Nat → List Nat → Nat → Nat)
    (gtag : List Nat → List Nat → List Nat → List Nat)
    (key iv : List Nat) (chunks : List (List Nat)) (i : Nat)
    (hiv : iv.length = 12) (hn : chunks.length ≤ 4294967296) :
    chunkIv iv i = iv.take 8 ++ writeUInt32BE i ∧
    (chunkIv iv i).length = 12 ∧
    (streamFileMsgs ks gtag key iv chunks).map DataMsg.index =
      List.range chunks.length ∧
    ((streamFileMsgs ks gtag key iv chunks).map DataMsg.iv).Pairwise (· ≠ ·) := by
  refine ⟨chunkIv_eq iv i hiv, length_chunkIv iv i hiv, ?_, ?_⟩
  · rw [streamFileMsgs, streamFileGo_indices, List.range_eq_range']
  · rw [streamFileMsgs, streamFileGo_ivs, ← List.range_eq_range']
    have h0 : (List.range chunks.length).Pairwise
        (fun a b => a < 4294967296 ∧ b < 4294967296 ∧ a ≠ b) := by
      refine (List.pairwise_lt_range chunks.length).imp_of_mem ?_
      intro a b ha hb hlt
      have ha' : a < chunks.length := List.mem_range.mp ha
      have hb' : b < chunks.length := List.mem_range.mp hb
      exact ⟨by omega, by omega, by omega⟩
    exact h0.map (chunkIv iv)
      (fun a b hab he => hab.2.2 (chunkIv_inj iv a b hab.1 hab.2.1 he))

/-- Witness for C3 at a concrete iv and chunk list. -/
theorem C3_chunk_iv_witness :
    (List.replicate 12 3 : List Nat).length = 12 ∧
    ([[1], [2, 2], [3]] : List (List Nat)).length ≤ 4294967296 ∧
    (chunkIv (List.replicate 12 3) 1 =
        (List.replicate 12 3 : List Nat).take 8 ++ writeUInt32BE 1 ∧
      (chunkIv (List.replicate 12 3) 1).length = 12 ∧
      (streamFileMsgs (fun _ _ _ => 0) (fun _ _ _ => [])
          (List.replicate 32 0) (List.replicate 12 3) [[1], [2, 2], [3]]).map
          DataMsg.index = List.range 3 ∧
      ((streamFileMsgs (fun _ _ _ => 0) (fun _ _ _ => [])
          (List.replicate 32 0) (List.replicate 12 3) [[1], [2, 2], [3]]).map
          DataMsg.iv).Pairwise (· ≠ ·)) :=
  ⟨by decide, by decide,
    C3_chunk_iv (fun _ _ _ => 0) (fun _ _ _ => []) (List.replicate 32 0)
      (List.replicate 12 3) [[1], [2, 2], [3]] 1 (by decide) (by decide)⟩

/-! ### Sender state machine (transport.js, sendFile and doSend)

The sender is event-driven: after the TLS connect callback it reacts to
the peer's framed messages (session, accepted, rejected) and to socket
error and close.  The model replays a list of such inputs in order.  The
enclosing promise of doSend is modelled by the settled field: the first
resolve or reject wins, and sendFile's catch block appends a final
transfer-error when the promise was rejected.  Streaming from disk is
assumed to succeed (chunks are the file's blocks); each chunk emits one
transfer-progress exactly as the readStream data handler does. -/

/-- Transfer status values from transport.js. -/
inductive Status where
  | connecting | handshake | pending | transferring | verifying
  | completed | rejected | error
  deriving DecidableEq, Repr

/-- Events Transport emits (event names from transport.js). -/
inductive OutEv where
  | progress | complete | transferError | incomingRequest
  deriving DecidableEq, Repr

/-- Inputs observed by the sender's connection after connect. -/
inductive SEv where
  | session (encKey iv : List Nat)
  | accepted
  | rejectedMsg
  | sockError
  | closeEv
  deriving DecidableEq, Repr

/-- Sender-side per-transfer state plus the doSend promise.  bytes is the
transfer record's bytesTransferred field. -/
structure SendSt where
  status : Status
  settled : Option Bool
  sessionIv : Option (List Nat)
  bytes : Nat
  events : List OutEv
  deriving DecidableEq, Repr

/-- Settle the doSend promise: the first resolve (true) or reject (false)
wins; later settlements are ignored. -/
def settle (st : SendSt) (b : Bool) : SendSt :=
  if st.settled = none then { st with settled := some b } else st

/-- One message-handler dispatch of doSend.  On session the code sets
status to transferring (transport.js line 221) and sends meta; on
accepted it streams the file (one transfer-progress per chunk), then
marks completed, emits transfer-complete and resolves; on rejected it
marks rejected, emits transfer-error and rejects; a socket error rejects;
close rejects only while transferring. -/
def sendStep (chunks : List (List Nat)) (st : SendSt) : SEv → SendSt
  | .session _ iv =>
    { st with
      status := .transferring
      sessionIv := some iv
      events := st.events ++ [.progress] }
  | .accepted =>
    let st1 := { st with events := st.events ++ List.replicate chunks.length OutEv.progress }
    settle
      { st1 with
        status := .completed
        bytes := (chunks.map List.length).sum
        events := st1.events ++ [OutEv.complete] } true
  | .rejectedMsg =>
    settle { st with status := .rejected, events := st.events ++ [.transferError] } false
  | .sockError => settle st false
  | .closeEv => if st.status = .transferring then settle st false else st

/-- A whole sendFile call: initial transfer-progress with status
connecting, the connect callback (status handshake, another progress),
the handler dispatches in order, and finally sendFile's catch block:
when the doSend promise was rejected, set status to error and emit one
more transfer-error. -/
def sendRun (chunks : List (List Nat)) (evs : List SEv) : SendSt :=
  let st0 : SendSt :=
    { status := .connecting, settled := none, sessionIv := none, bytes := 0,
      events := [.progress] }
  let st1 : SendSt := { st0 with status := .handshake, events := st0.events ++ [.progress] }
  let stF := evs.foldl (sendStep chunks) st1
  if stF.settled = some false then
    { stF with status := .error, events := stF.events ++ [.transferError] }
  else stF

/-- Counterexample to claim C1: a send whose peer answers rejected emits
transfer-error twice — once from the rejected handler (transport.js line
252) and once from sendFile's catch block (line 187) after the promise
rejection propagates. -/
theorem C1_counterexample :
    ((sendRun [] [SEv.session [] [], SEv.rejectedMsg]).events.count OutEv.transferError = 2) ∧
    ¬ ((sendRun [] [SEv.session [] [], SEv.rejectedMsg]).events.count OutEv.transferError ≤ 1) := by
  decide

/-- Claim C1 as amended: the two terminal event kinds remain mutually
exclusive on the sender's rejected and successful runs, but transfer-error
is not emitted at most once — a send whose peer answers rejected emits it
exactly twice (and no transfer-complete), while a successful send emits
exactly one transfer-complete and no transfer-error. -/
theorem C1_terminal_events_amended (encKey iv : List Nat) (chunks : List (List Nat)) :
    ((sendRun chunks [SEv.session encKey iv, SEv.rejectedMsg]).events.count
        OutEv.transferError = 2 ∧
      (sendRun chunks [SEv.session encKey iv, SEv.rejectedMsg]).events.count
        OutEv.complete = 0) ∧
    ((sendRun chunks [SEv.session encKey iv, SEv.accepted]).events.count
        OutEv.complete = 1 ∧
      (sendRun chunks [SEv.session encKey iv, SEv.accepted]).events.count
        OutEv.transferError = 0) := by
  simp [sendRun, sendStep, settle, List.count_append, List.count_replicate]

/-- Counterexample to claim C4: immediately after processing the session
message the sender's status is already transferring, not handshake
(transport.js line 221 runs before meta is sent). -/
theorem C4_counterexample :
    (sendRun [] [SEv.session [] []]).status = Status.transferring ∧
    Status.transferring ≠ Status.handshake := by
  decide

/-- Claim C4 as amended: the sender is in handshake before any message
arrives, moves to transferring already on session (before sending meta and
before any accepted arrives), and accepted then drives streaming to
completed. -/
theorem C4_sender_status_amended (encKey iv : List Nat) (chunks : List (List Nat)) :
    (sendRun chunks []).status = Status.handshake ∧
    (sendRun chunks [SEv.session encKey iv]).status = Status.transferring ∧
    (sendRun chunks [SEv.session encKey iv, SEv.accepted]).status = Status.completed := by
  simp [sendRun, sendStep, settle]

/-! ### Receiver state machine (transport.js, handleIncoming)

The receiver reacts to the framed messages of one TLS connection (hello,
meta, data, done), to the user's accept/reject decision delivered through
respondToIncoming, and to socket errors.  The model replays a list of
such inputs in order.  The AES-GCM open and the SHA-256 file digest are
the abstract parameters ks, gtag and hashF; the write stream is the list
of plaintext bytes written so far.  The post-transfer hash check, which
the code runs in a setTimeout continuation, is folded into the done
step (the connection is idle at that point). -/

/-- Receiver-side transfer record fields used by the claims. -/
structure Transfer where
  fileName : List Char
  fileSize : Nat
  bytesTransferred : Nat
  status : Status
  deriving DecidableEq, Repr

/-- Inputs observed by one incoming connection.  The hello payload
carries the fresh session key and base IV that generateSessionKey
returns at that point. -/
inductive REv where
  | hello (key iv : List Nat)
  | meta (name : List Char) (size : Nat) (hash : List Nat)
  | userAccept
  | userReject
  | data (index : Nat) (authTag ciphertext : List Nat)
  | done
  | sockError
  deriving DecidableEq, Repr

/-- The per-connection closure state of handleIncoming plus the transfer
record and the emitted events. -/
structure RecvSt where
  sessionKey : Option (List Nat) := none
  sessionIv : Option (List Nat) := none
  fileMeta : Option (List Char × Nat × List Nat) := none
  writeStream : Option (List Nat) := none
  receivedBytes : Nat := 0
  transfer : Option Transfer := none
  pendingResp : Bool := false
  destroyed : Bool := false
  events : List OutEv := []
  deriving DecidableEq, Repr

/-- One dispatch of handleIncoming (and of the respondToIncoming
resolver).  Socket-delivered inputs are dropped once the socket is
destroyed.  A data message with no write stream yet hits the
"if (!writeStream) break" line and leaves everything unchanged; a meta
is processed unconditionally (transfer created with status pending,
incoming-request emitted).  destPath handling is modelled separately
(see the download-path section). -/
def recvStep (ks : List Nat → List Nat → Nat → Nat)
    (gtag : List Nat → List Nat → List Nat → List Nat)
    (hashF : List Nat → List Nat) (st : RecvSt) : REv → RecvSt
  | .hello key iv =>
    if st.destroyed then st else
    { st with sessionKey := some key, sessionIv := some iv }
  | .meta name size hash =>
    if st.destroyed then st else
    { st with
      fileMeta := some (name, size, hash)
      transfer := some ⟨name, size, 0, Status.pending⟩
      pendingResp := true
      events := st.events ++ [OutEv.incomingRequest] }
  | .userAccept =>
    if st.pendingResp then
      { st with
        pendingResp := false
        transfer := st.transfer.map (fun t => { t with status := Status.transferring })
        writeStream := some []
        events := st.events ++ [OutEv.progress] }
    else st
  | .userReject =>
    if st.pendingResp then
      { st with
        pendingResp := false
        transfer := st.transfer.map (fun t => { t with status := Status.rejected })
        events := st.events ++ [OutEv.transferError] }
    else st
  | .data index authTag ct =>
    if st.destroyed then st else
    match st.writeStream with
    | none => st
    | some ws =>
      match st.sessionKey, st.sessionIv with
      | some key, some siv =>
        match decryptChunk ks gtag key (chunkIv siv index) ct authTag with
        | some pt =>
          { st with
            writeStream := some (ws ++ pt)
            receivedBytes := st.receivedBytes + pt.length
            transfer := st.transfer.map
              (fun t => { t with bytesTransferred := st.receivedBytes + pt.length })
            events := st.events ++
              (if st.transfer.isSome then [OutEv.progress] else []) }
        | none =>
          { st with
            transfer := st.transfer.map (fun t => { t with status := Status.error })
            events := st.events ++
              (if st.transfer.isSome then [OutEv.transferError] else [])
            destroyed := true }
      | _, _ => st
  | .done =>
    if st.destroyed then st else
    match st.transfer, st.fileMeta with
    | some t, some fm =>
      match st.writeStream with
      | some ws =>
        if hashF ws = fm.2.2 then
          { st with
            transfer := some
              { t with status := Status.completed, bytesTransferred := t.fileSize }
            events := st.events ++ [OutEv.progress, OutEv.complete] }
        else
          { st with
            transfer := some { t with status := Status.error }
            events := st.events ++ [OutEv.progress, OutEv.transferError] }
      | none =>
        { st with
          transfer := some { t with status := Status.error }
          events := st.events ++ [OutEv.progress, OutEv.transferError] }
    | _, _ => st
  | .sockError =>
    match st.transfer with
    | some t =>
      if t.status = Status.completed then st
      else
        { st with
          transfer := some { t with status := Status.error }
          events := st.events ++ [OutEv.transferError] }
    | none => st

/-- A whole incoming connection: replay the inputs from the fresh
closure state. -/
def recvRun (ks : List Nat → List Nat → Nat → Nat)
    (gtag : List Nat → List Nat → List Nat → List Nat)
    (hashF : List Nat → List Nat) (evs : List REv) : RecvSt :=
  evs.foldl (recvStep ks gtag hashF) {}

/-- Counterexample to claim C5: a data message before accept is silently
ignored (the state is unchanged and the connection is not destroyed),
and a meta before session is processed normally (pending transfer
created, incoming-request emitted, connection intact) — neither is
treated as a protocol error that destroys the connection. -/
theorem C5_counterexample :
    (recvRun (fun _ _ _ => 0) (fun _ _ _ => []) (fun _ => [])
        [REv.data 0 [] []] = ({} : RecvSt) ∧
      (recvRun (fun _ _ _ => 0) (fun _ _ _ => []) (fun _ => [])
        [REv.data 0 [] []]).destroyed = false) ∧
    ((recvRun (fun _ _ _ => 0) (fun _ _ _ => []) (fun _ => [])
        [REv.meta [Char.ofNat 97] 5 []]).destroyed = false ∧
      (recvRun (fun _ _ _ => 0) (fun _ _ _ => []) (fun _ => [])
        [REv.meta [Char.ofNat 97] 5 []]).transfer =
        some ⟨[Char.ofNat 97], 5, 0, Status.pending⟩) := by
  decide

/-- Claim C5 as amended: a data message arriving before the transfer has
been accepted is silently ignored — the handler hits the
"if (!writeStream) break" line, changing nothing and destroying nothing —
and a meta arriving before any session reply is processed as a normal
incoming request (pending transfer created, incoming-request emitted, no
destruction); neither early message is a connection-destroying protocol
error. -/
theorem C5_ordering_amended (ks : List Nat → List Nat → Nat → Nat)
    (gtag : List Nat → List Nat → List Nat → List Nat)
    (hashF : List Nat → List Nat) (st : RecvSt) (i : Nat) (authTag ct : List Nat)
    (name : List Char) (size : Nat) (hash : List Nat)
    (hw : st.writeStream = none) (hd : st.destroyed = false) :
    recvStep ks gtag hashF st (REv.data i authTag ct) = st ∧
    (recvRun ks gtag hashF [REv.meta name size hash]).destroyed = false ∧
    (recvRun ks gtag hashF [REv.meta name size hash]).transfer =
      some ⟨name, size, 0, Status.pending⟩ ∧
    (recvRun ks gtag hashF [REv.meta name size hash]).events = [OutEv.incomingRequest] := by
  refine ⟨?_, rfl, rfl, rfl⟩
  simp [recvStep, hw, hd]

/-- Witness for C5 at a concrete state and inputs. -/
theorem C5_ordering_amended_witness :
    (({} : RecvSt).writeStream = none ∧ ({} : RecvSt).destroyed = false) ∧
    (recvStep (fun _ _ _ => 0) (fun _ _ _ => []) (fun _ => []) {}
        (REv.data 2 [1] [2]) = ({} : RecvSt) ∧
      (recvRun (fun _ _ _ => 0) (fun _ _ _ => []) (fun _ => [])
        [REv.meta [Char.ofNat 98] 7 [3]]).destroyed = false ∧
      (recvRun (fun _ _ _ => 0) (fun _ _ _ => []) (fun _ => [])
        [REv.meta [Char.ofNat 98] 7 [3]]).transfer =
        some ⟨[Char.ofNat 98], 7, 0, Status.pending⟩ ∧
      (recvRun (fun _ _ _ => 0) (fun _ _ _ => []) (fun _ => [])
        [REv.meta [Char.ofNat 98] 7 [3]]).events = [OutEv.incomingRequest]) :=
  ⟨⟨rfl, rfl⟩,
    C5_ordering_amended (fun _ _ _ => 0) (fun _ _ _ => []) (fun _ => []) {}
      2 [1] [2] [Char.ofNat 98] 7 [3] rfl rfl⟩

/-! ### bytesTransferred accounting (claim C6) -/

/-- The successive values of transfer.bytesTransferred as the streamFile
data handler adds chunk.length for each chunk, starting from a given
value. -/
def senderProgressBytes : Nat → List (List Nat) → List Nat
  | _, [] => []
  | acc, c :: cs => (acc + c.length) :: senderProgressBytes (acc + c.length) cs

theorem senderProgressBytes_le (chunks : List (List Nat)) (acc : Nat) :
    ∀ b ∈ senderProgressBytes acc chunks, b ≤ acc + (chunks.map List.length).sum := by
  induction chunks generalizing acc with
  | nil => simp [senderProgressBytes]
  | cons c cs ih =>
    intro b hb
    simp only [senderProgressBytes, List.mem_cons] at hb
    rcases hb with rfl | hb
    · simp only [List.map_cons, List.sum_cons]
      omega
    · have := ih (acc + c.length) b hb
      simp only [List.map_cons, List.sum_cons]
      omega

/-- Counterexample to claim C6: the receiver adds every decrypted chunk's
length to bytesTransferred with no bound against the size announced in
meta, so a sender that announces size 0 and then delivers one
authenticated 1-byte chunk drives bytesTransferred to 1 > 0. -/
theorem C6_counterexample :
    (recvRun (fun _ _ _ => 0) (fun _ _ _ => []) (fun _ => [])
        [REv.hello [] [], REv.meta [Char.ofNat 97] 0 [], REv.userAccept,
          REv.data 0 [] [7]]).transfer =
      some ⟨[Char.ofNat 97], 0, 1, Status.transferring⟩ ∧
    Option.all (fun t => decide (t.bytesTransferred ≤ t.fileSize))
      (recvRun (fun _ _ _ => 0) (fun _ _ _ => []) (fun _ => [])
        [REv.hello [] [], REv.meta [Char.ofNat 97] 0 [], REv.userAccept,
          REv.data 0 [] [7]]).transfer = false := by
  decide

/-- Claim C6 as amended: on the sending side bytesTransferred stays at or
below fileSize after every chunk (fileSize being the sum of the chunk
lengths read from the file) and equals fileSize on completion; on the
receiving side the done step with a matching hash sets status completed
and bytesTransferred = fileSize, but between chunks bytesTransferred is
the cumulative decrypted plaintext length, which is not bounded by the
announced fileSize when the sender over-delivers. -/
theorem C6_bytes_amended (ks : List Nat → List Nat → Nat → Nat)
    (gtag : List Nat → List Nat → List Nat → List Nat)
    (hashF : List Nat → List Nat) (encKey iv : List Nat) (chunks : List (List Nat))
    (st : RecvSt) (t : Transfer) (fm : List Char × Nat × List Nat) (ws : List Nat)
    (hd : st.destroyed = false) (ht : st.transfer = some t)
    (hm : st.fileMeta = some fm) (hw : st.writeStream = some ws)
    (hh : hashF ws = fm.2.2) :
    (∀ b ∈ senderProgressBytes 0 chunks, b ≤ (chunks.map List.length).sum) ∧
    (sendRun chunks [SEv.session encKey iv, SEv.accepted]).status = Status.completed ∧
    (sendRun chunks [SEv.session encKey iv, SEv.accepted]).bytes =
      (chunks.map List.length).sum ∧
    (recvStep ks gtag hashF st REv.done).transfer =
      some { t with status := Status.completed, bytesTransferred := t.fileSize } := by
  refine ⟨?_, ?_, ?_, ?_⟩
  · intro b hb
    simpa using senderProgressBytes_le chunks 0 b hb
  · simp [sendRun, sendStep, settle]
  · simp [sendRun, sendStep, settle]
  · simp [recvStep, hd, ht, hm, hw, hh]

/-- Witness for C6 at a concrete receiver state and sender run. -/
theorem C6_bytes_amended_witness :
    (({ sessionKey := some [], sessionIv := some [],
        fileMeta := some ([Char.ofNat 98], 3, [4]), writeStream := some [9],
        receivedBytes := 1,
        transfer := some ⟨[Char.ofNat 98], 3, 1, Status.transferring⟩,
        pendingResp := false, destroyed := false,
        events := [] } : RecvSt).destroyed = false ∧
      (fun (_ : List Nat) => ([4] : List Nat)) [9] = [4]) ∧
    ((∀ b ∈ senderProgressBytes 0 [[5], [6, 6]],
        b ≤ (([[5], [6, 6]] : List (List Nat)).map List.length).sum) ∧
      (sendRun [[5], [6, 6]] [SEv.session [] [], SEv.accepted]).status =
        Status.completed ∧
      (sendRun [[5], [6, 6]] [SEv.session [] [], SEv.accepted]).bytes =
        (([[5], [6, 6]] : List (List Nat)).map List.length).sum ∧
      (recvStep (fun _ _ _ => 0) (fun _ _ _ => []) (fun _ => [4])
          { sessionKey := some [], sessionIv := some [],
            fileMeta := some ([Char.ofNat 98], 3, [4]), writeStream := some [9],
            receivedBytes := 1,
            transfer := some ⟨[Char.ofNat 98], 3, 1, Status.transferring⟩,
            pendingResp := false, destroyed := false, events := [] }
          REv.done).transfer =
        some ⟨[Char.ofNat 98], 3, 3, Status.completed⟩) :=
  ⟨⟨rfl, rfl⟩,
    C6_bytes_amended (fun _ _ _ => 0) (fun _ _ _ => []) (fun _ => [4]) [] []
      [[5], [6, 6]]
      { sessionKey := some [], sessionIv := some [],
        fileMeta := some ([Char.ofNat 98], 3, [4]), writeStream := some [9],
        receivedBytes := 1,
        transfer := some ⟨[Char.ofNat 98], 3, 1, Status.transferring⟩,
        pendingResp := false, destroyed := false, events := [] }
      ⟨[Char.ofNat 98], 3, 1, Status.transferring⟩ ([Char.ofNat 98], 3, [4]) [9]
      rfl rfl rfl rfl rfl⟩

/-! ### Download destination path (transport.js, accept branch)

The accept branch computes path.join(DOWNLOADS_DIR, path.basename(name)).
Paths are modelled as lists of '/'-separated segments with posix
semantics (the path module flavour in effect on the systems the spec
describes; a backslash is an ordinary file-name character there).
path.join concatenates and then normalises, which resolves '.' and '..'
segments — so a basename of '..' escapes the downloads directory. -/

/-- Remove trailing '/' characters, as Node's posix basename does before
taking the last component. -/
def dropTrailingSlashes (s : List Char) : List Char :=
  (s.reverse.dropWhile (· = '/')).reverse

/-- Model of path.basename (posix, no extension argument): the part of
the input after its last '/', trailing slashes ignored; empty when only
slashes remain. -/
def basename (s : List Char) : List Char :=
  ((dropTrailingSlashes s).reverse.takeWhile (· ≠ '/')).reverse

/-- Split a path string into its '/'-separated segments (empty segments
are kept here; normalisation discards them). -/
def splitSlash : List Char → List (List Char)
  | [] => [[]]
  | c :: cs =>
    if c = '/' then [] :: splitSlash cs
    else
      match splitSlash cs with
      | [] => [[c]]
      | g :: gs => (c :: g) :: gs

/-- One step of Node path normalisation on an absolute path's segments:
empty and '.' segments vanish, '..' pops the previous segment (clamped
at the root), anything else is appended. -/
def normStep (acc : List (List Char)) (c : List Char) : List (List Char) :=
  if c = [] ∨ c = ['.'] then acc
  else if c = ['.', '.'] then acc.dropLast
  else acc ++ [c]

/-- Node path normalisation of an absolute path given as segments. -/
def normComps (cs : List (List Char)) : List (List Char) :=
  cs.foldl normStep []

/-- DOWNLOADS_DIR = path.join(os.homedir(), 'Downloads', 'la-vak') as
segments on top of the home directory's segments. -/
def downloadsDir (home : List (List Char)) : List (List Char) :=
  home ++ [['D', 'o', 'w', 'n', 'l', 'o', 'a', 'd', 's'],
           ['l', 'a', '-', 'v', 'a', 'k']]

/-- The destination the accept branch computes:
path.join(DOWNLOADS_DIR, path.basename(fileMeta.name)). -/
def destPath (home : List (List Char)) (name : List Char) : List (List Char) :=
  normComps (downloadsDir home ++ splitSlash (basename name))

/-- A path is strictly inside a directory when the directory's segments
are a proper prefix of the path's segments. -/
def strictlyInside (dir p : List (List Char)) : Prop :=
  dir <+: p ∧ dir ≠ p

/-- Counterexample to claim C2: the sender-supplied name '..' (which
contains '..') has basename '..', and path.join resolves it, so the
destination is <home>/Downloads — the parent of the downloads directory,
not strictly inside it. -/
theorem C2_counterexample :
    (['.', '.'] : List Char) <:+: ['.', '.'] ∧
    destPath [['h']] ['.', '.'] =
      [['h'], ['D', 'o', 'w', 'n', 'l', 'o', 'a', 'd', 's']] ∧
    ¬ strictlyInside (downloadsDir [['h']]) (destPath [['h']] ['.', '.']) := by
  refine ⟨⟨[], [], rfl⟩, rfl, ?_⟩
  intro h
  rcases h.1 with ⟨t, ht⟩
  have hlen := congrArg List.length ht
  simp only [List.length_append] at hlen
  have h1 : (downloadsDir [['h']]).length = 3 := rfl
  have h2 : (destPath [['h']] ['.', '.']).length = 2 := rfl
  omega

theorem basename_no_slash (name : List Char) :
    ∀ ch ∈ basename name, ch ≠ '/' := by
  intro ch hch
  rw [basename, List.mem_reverse] at hch
  have := List.mem_takeWhile_imp hch
  simp only [decide_eq_true_eq] at this
  exact this

theorem splitSlash_no_slash (b : List Char) (h : ∀ ch ∈ b, ch ≠ '/') :
    splitSlash b = [b] := by
  induction b with
  | nil => rfl
  | cons c cs ih =>
    have hc : c ≠ '/' := h c (by simp)
    have hcs : ∀ ch ∈ cs, ch ≠ '/' := fun ch hm => h ch (by simp [hm])
    simp only [splitSlash, if_neg hc, ih hcs]

/-- A segment that survives normalisation unchanged. -/
def cleanSeg (c : List Char) : Prop :=
  c ≠ [] ∧ c ≠ ['.'] ∧ c ≠ ['.', '.']

instance (c : List Char) : Decidable (cleanSeg c) := by
  unfold cleanSeg
  infer_instance

theorem normComps_clean (cs : List (List Char)) (h : ∀ c ∈ cs, cleanSeg c) :
    ∀ acc, cs.foldl normStep acc = acc ++ cs := by
  induction cs with
  | nil => simp
  | cons c cs ih =>
    intro acc
    have hc := h c (by simp)
    have hcs : ∀ d ∈ cs, cleanSeg d := fun d hm => h d (by simp [hm])
    have hstep : normStep acc c = acc ++ [c] := by
      rw [normStep, if_neg, if_neg hc.2.2]
      rintro (h1 | h1)
      · exact hc.1 h1
      · exact hc.2.1 h1
    rw [List.foldl_cons, hstep, ih hcs]
    simp

/-- Claim C2 as amended: for every sender-supplied name whose final path
component is none of the empty string, '.' and '..', the destination is
the downloads directory extended by exactly that component, hence
strictly inside it (whatever '/', backslash or '..' occurrences the rest
of the name has); the exceptional basenames '', '.' and '..' — reachable
for example from the names '/', 'a/.' and '..' — land on the downloads
directory itself or its parent. -/
theorem C2_path_amended (home : List (List Char)) (name : List Char)
    (hhome : ∀ c ∈ home, cleanSeg c)
    (hb : cleanSeg (basename name)) :
    destPath home name = downloadsDir home ++ [basename name] ∧
    strictlyInside (downloadsDir home) (destPath home name) := by
  have hsplit : splitSlash (basename name) = [basename name] :=
    splitSlash_no_slash (basename name) (basename_no_slash name)
  have hclean : ∀ c ∈ downloadsDir home ++ [basename name], cleanSeg c := by
    intro c hc
    rcases List.mem_append.mp hc with hc | hc
    · rcases List.mem_append.mp hc with hc | hc
      · exact hhome c hc
      · simp only [List.mem_cons, List.not_mem_nil, or_false] at hc
        rcases hc with rfl | rfl
        · decide
        · decide
    · simp only [List.mem_cons, List.not_mem_nil, or_false] at hc
      subst hc
      exact hb
  have hdest : destPath home name = downloadsDir home ++ [basename name] := by
    rw [destPath, hsplit, normComps]
    simpa using normComps_clean (downloadsDir home ++ [basename name]) hclean []
  refine ⟨hdest, ⟨hdest ▸ ⟨[basename name], rfl⟩, ?_⟩⟩
  rw [hdest]
  intro h
  have := congrArg List.length h
  simp at this

/-- Witness for C2 at the concrete name 'a/../x' under home /h. -/
theorem C2_path_amended_witness :
    ((∀ c ∈ ([[Char.ofNat 104]] : List (List Char)), cleanSeg c) ∧
      cleanSeg (basename [Char.ofNat 97, '/', '.', '.', '/', Char.ofNat 120])) ∧
    (destPath [[Char.ofNat 104]] [Char.ofNat 97, '/', '.', '.', '/', Char.ofNat 120] =
        downloadsDir [[Char.ofNat 104]] ++
          [basename [Char.ofNat 97, '/', '.', '.', '/', Char.ofNat 120]] ∧
      strictlyInside (downloadsDir [[Char.ofNat 104]])
        (destPath [[Char.ofNat 104]] [Char.ofNat 97, '/', '.', '.', '/', Char.ofNat 120])) :=
  ⟨⟨by decide, by decide⟩,
    C2_path_amended [[Char.ofNat 104]] [Char.ofNat 97, '/', '.', '.', '/', Char.ofNat 120]
      (by decide) (by decide)⟩

/-! ### Wire framing (transport.js, encodeMessage and MessageReader)

Each frame is [4-byte BE outer length][4-byte BE header length][JSON
header bytes][payload].  JSON itself is a Node built-in, so the header
codec is a parameter pair: stringify on the sending side and parse on the
receiving side; a JSON-serializable header is one that parse recovers
from its stringify image.  MessageReader.push appends to a buffer and
extracts complete frames in a loop; the inner frame.readUInt32BE(0) call
throws a RangeError when the declared outer length is below 4, modelled
as the error result of the loop. -/

/-- The one exception the reader loop can raise:
Buffer.readUInt32BE out of range. -/
inductive RErr where
  | outOfRange
  deriving DecidableEq, Repr

section Framing

variable {Header : Type}

/-- Model of encodeMessage over the already-stringified header bytes.
The code pushes the payload part only when it is nonempty; the resulting
bytes are the same either way. -/
def encodeFrame (headerBuf payload : List Nat) : List Nat :=
  let headerLenBuf := writeUInt32BE headerBuf.length
  let parts :=
    if payload.length > 0 then headerLenBuf ++ headerBuf ++ payload
    else headerLenBuf ++ headerBuf
  writeUInt32BE parts.length ++ parts

theorem encodeFrame_eq (headerBuf payload : List Nat) :
    encodeFrame headerBuf payload =
      writeUInt32BE (4 + headerBuf.length + payload.length) ++
        (writeUInt32BE headerBuf.length ++ headerBuf ++ payload) := by
  have hparts : (if payload.length > 0
        then writeUInt32BE headerBuf.length ++ headerBuf ++ payload
        else writeUInt32BE headerBuf.length ++ headerBuf) =
      writeUInt32BE headerBuf.length ++ headerBuf ++ payload := by
    rcases payload with _ | ⟨b, bs⟩ <;> simp
  have hlen : (writeUInt32BE headerBuf.length ++ headerBuf ++ payload).length =
      4 + headerBuf.length + payload.length := by
    simp only [List.length_append, length_writeUInt32BE]
  simp only [encodeFrame]
  rw [hparts, hlen]

/-- The header bytes of a stripped frame: frame.subarray(4, 4 + headerLen)
where headerLen = frame.readUInt32BE(0). -/
def frameHeaderBuf (frame : List Nat) : List Nat :=
  (frame.drop 4).take (readUInt32BE frame)

/-- The payload of a stripped frame: frame.subarray(4 + headerLen). -/
def framePayload (frame : List Nat) : List Nat :=
  frame.drop (4 + readUInt32BE frame)

/-- The while loop of MessageReader.push, run to exhaustion on a buffer:
while at least 4 bytes are present, read the outer length; stop when the
frame is incomplete; otherwise strip the frame and parse its header,
skipping frames whose header bytes fail to parse.  When the declared
outer length is below 4 the inner readUInt32BE throws — the error
result. -/
def readerLoop (parse : List Nat → Option Header) (buffer : List Nat) :
    Except RErr (List (Header × List Nat) × List Nat) :=
  if h4 : buffer.length < 4 then .ok ([], buffer)
  else if hlt : buffer.length < 4 + readUInt32BE buffer then .ok ([], buffer)
  else if readUInt32BE buffer < 4 then .error .outOfRange
  else
    let frame := (buffer.drop 4).take (readUInt32BE buffer)
    let res := readerLoop parse (buffer.drop (4 + readUInt32BE buffer))
    match parse (frameHeaderBuf frame) with
    | some h => res.map (fun r => ((h, framePayload frame) :: r.1, r.2))
    | none => res
termination_by buffer.length
decreasing_by
  simp only [List.length_drop]
  omega

/-- A sequence of MessageReader.push calls starting from a given buffered
tail: each push appends its data, runs the loop, and hands the leftover
buffer to the next push; the parsed messages are concatenated in order. -/
def feed (parse : List Nat → Option Header) (buf : List Nat) :
    List (List Nat) → Except RErr (List (Header × List Nat) × List Nat)
  | [] => .ok ([], buf)
  | d :: ds =>
    match readerLoop parse (buf ++ d) with
    | .error e => .error e
    | .ok (ms, b) =>
      match feed parse b ds with
      | .error e => .error e
      | .ok (ms2, b2) => .ok (ms ++ ms2, b2)

/-- All frames of a message list, encoded and concatenated. -/
def encodeAll (stringify : Header → List Nat) (frames : List (Header × List Nat)) :
    List Nat :=
  (frames.map (fun f => encodeFrame (stringify f.1) f.2)).flatten

theorem readerLoop_stop (parse : List Nat → Option Header) (buffer : List Nat)
    (h : buffer.length < 4 ∨ buffer.length < 4 + readUInt32BE buffer) :
    readerLoop parse buffer = .ok ([], buffer) := by
  rw [readerLoop.eq_def]
  by_cases h4 : buffer.length < 4
  · simp [h4]
  · have hlt : buffer.length < 4 + readUInt32BE buffer := h.resolve_left h4
    simp [h4, hlt]

theorem readerLoop_frame (parse : List Nat → Option Header)
    (headerBuf payload rest : List Nat) (hh : Header)
    (hp : parse headerBuf = some hh)
    (hlen : 4 + headerBuf.length + payload.length < 4294967296) :
    readerLoop parse (encodeFrame headerBuf payload ++ rest) =
      (readerLoop parse rest).map (fun r => ((hh, payload) :: r.1, r.2)) := by
  have hassoc : encodeFrame headerBuf payload ++ rest =
      writeUInt32BE (4 + headerBuf.length + payload.length) ++
        ((writeUInt32BE headerBuf.length ++ headerBuf ++ payload) ++ rest) := by
    rw [encodeFrame_eq, List.append_assoc]
  rw [hassoc]
  set B := writeUInt32BE (4 + headerBuf.length + payload.length) ++
    ((writeUInt32BE headerBuf.length ++ headerBuf ++ payload) ++ rest) with hB
  have hinnerlen : (writeUInt32BE headerBuf.length ++ headerBuf ++ payload).length =
      4 + headerBuf.length + payload.length := by
    simp only [List.length_append, length_writeUInt32BE]
  have hBlen : B.length = 4 + (4 + headerBuf.length + payload.length) + rest.length := by
    simp only [hB, List.length_append, length_writeUInt32BE]
    omega
  have hread : readUInt32BE B = 4 + headerBuf.length + payload.length := by
    rw [hB]
    exact readUInt32BE_writeUInt32BE _ _ hlen
  have hdrop4 : B.drop 4 = (writeUInt32BE headerBuf.length ++ headerBuf ++ payload) ++ rest := by
    rw [hB]
    exact List.drop_left' (length_writeUInt32BE _)
  have hframe : (B.drop 4).take (readUInt32BE B) =
      writeUInt32BE headerBuf.length ++ headerBuf ++ payload := by
    rw [hdrop4, hread]
    exact List.take_left' hinnerlen
  have hrest : B.drop (4 + readUInt32BE B) = rest := by
    rw [hread, hB, ← List.append_assoc]
    refine List.drop_left' ?_
    simp only [List.length_append, length_writeUInt32BE, hinnerlen]
  have hreadInner : readUInt32BE (writeUInt32BE headerBuf.length ++ headerBuf ++ payload) =
      headerBuf.length := by
    rw [List.append_assoc]
    exact readUInt32BE_writeUInt32BE _ _ (by omega)
  have hfhb : frameHeaderBuf ((B.drop 4).take (readUInt32BE B)) = headerBuf := by
    rw [hframe, frameHeaderBuf, hreadInner]
    have hd : (writeUInt32BE headerBuf.length ++ headerBuf ++ payload).drop 4 =
        headerBuf ++ payload := by
      rw [List.append_assoc]
      exact List.drop_left' (length_writeUInt32BE _)
    rw [hd]
    exact List.take_left' rfl
  have hfpl : framePayload ((B.drop 4).take (readUInt32BE B)) = payload := by
    rw [hframe, framePayload, hreadInner]
    refine List.drop_left' ?_
    simp only [List.length_append, length_writeUInt32BE]
  have c1 : ¬ B.length < 4 := by omega
  have c2 : ¬ B.length < 4 + readUInt32BE B := by
    rw [hread]
    omega
  have c3 : ¬ readUInt32BE B < 4 := by
    rw [hread]
    omega
  rw [readerLoop.eq_def]
  simp only [dif_neg c1, dif_neg c2, if_neg c3, hfhb, hfpl, hp, hrest]

theorem readerLoop_frames (parse : List Nat → Option Header) (stringify : Header → List Nat)
    (frames : List (Header × List Nat)) (tail : List Nat)
    (hp : ∀ f ∈ frames, parse (stringify f.1) = some f.1)
    (hlen : ∀ f ∈ frames, 4 + (stringify f.1).length + f.2.length < 4294967296)
    (htail : tail.length < 4 ∨ tail.length < 4 + readUInt32BE tail) :
    readerLoop parse (encodeAll stringify frames ++ tail) = .ok (frames, tail) := by
  induction frames with
  | nil =>
    simpa [encodeAll] using readerLoop_stop parse tail htail
  | cons f fs ih =>
    have h1 := hp f (by simp)
    have h2 := hlen f (by simp)
    have hp' : ∀ g ∈ fs, parse (stringify g.1) = some g.1 :=
      fun g hg => hp g (by simp [hg])
    have hlen' : ∀ g ∈ fs, 4 + (stringify g.1).length + g.2.length < 4294967296 :=
      fun g hg => hlen g (by simp [hg])
    rw [encodeAll, List.map_cons, List.flatten_cons, List.append_assoc,
      readerLoop_frame parse (stringify f.1) f.2 _ f.1 h1 h2]
    have hrec := ih hp' hlen'
    rw [encodeAll] at hrec
    rw [hrec]
    rfl

theorem readerLoop_restart (parse : List Nat → Option Header) (t : List Nat) (buf : List Nat) :
    ∀ ms b, readerLoop parse buf = .ok (ms, b) →
      readerLoop parse (buf ++ t) =
        (readerLoop parse (b ++ t)).map (fun r => (ms ++ r.1, r.2)) := by
  induction buf using readerLoop.induct parse with
  | case1 x h4 =>
    intro ms b h
    rw [readerLoop_stop parse x (Or.inl h4)] at h
    simp only [Except.ok.injEq, Prod.mk.injEq] at h
    obtain ⟨rfl, rfl⟩ := h
    cases hr : readerLoop parse (x ++ t) <;> simp [hr, Except.map]
  | case2 x h4 hlt =>
    intro ms b h
    rw [readerLoop_stop parse x (Or.inr hlt)] at h
    simp only [Except.ok.injEq, Prod.mk.injEq] at h
    obtain ⟨rfl, rfl⟩ := h
    cases hr : readerLoop parse (x ++ t) <;> simp [hr, Except.map]
  | case3 x h4 hlt hsm =>
    intro ms b h
    rw [readerLoop.eq_def] at h
    simp only [dif_neg h4, dif_neg hlt, if_pos hsm] at h
    exact Except.noConfusion h
  | case4 x h4 hlt hge frame hh hp ih =>
    intro ms b h
    have hf : frame = (x.drop 4).take (readUInt32BE x) := rfl
    rw [hf] at hp
    rw [readerLoop.eq_def] at h
    simp only [dif_neg h4, dif_neg hlt, if_neg hge, hp] at h
    have hxt4 : ¬ (x ++ t).length < 4 := by
      simp only [List.length_append]
      omega
    have hreadx : readUInt32BE (x ++ t) = readUInt32BE x :=
      readUInt32BE_append x t (by omega)
    have hxtlt : ¬ (x ++ t).length < 4 + readUInt32BE x := by
      simp only [List.length_append]
      omega
    have hdrop : (x ++ t).drop 4 = x.drop 4 ++ t :=
      List.drop_append_of_le_length (by omega)
    have htake : (x.drop 4 ++ t).take (readUInt32BE x) = (x.drop 4).take (readUInt32BE x) :=
      List.take_append_of_le_length (by simp only [List.length_drop]; omega)
    have hdrop2 : (x ++ t).drop (4 + readUInt32BE x) = x.drop (4 + readUInt32BE x) ++ t :=
      List.drop_append_of_le_length (by omega)
    cases hrec : readerLoop parse (x.drop (4 + readUInt32BE x)) with
    | error e =>
      rw [hrec] at h
      simp [Except.map] at h
    | ok r =>
      obtain ⟨ms', b'⟩ := r
      rw [hrec] at h
      simp only [Except.map, Except.ok.injEq, Prod.mk.injEq] at h
      obtain ⟨rfl, rfl⟩ := h
      rw [readerLoop.eq_def]
      simp only [hreadx, dif_neg hxt4, dif_neg hxtlt, if_neg hge, hdrop, htake, hdrop2, hp]
      rw [ih ms' b' hrec]
      cases hr : readerLoop parse (b' ++ t) <;> simp [hr, Except.map]
  | case5 x h4 hlt hge frame hp ih =>
    intro ms b h
    have hf : frame = (x.drop 4).take (readUInt32BE x) := rfl
    rw [hf] at hp
    rw [readerLoop.eq_def] at h
    simp only [dif_neg h4, dif_neg hlt, if_neg hge, hp] at h
    have hxt4 : ¬ (x ++ t).length < 4 := by
      simp only [List.length_append]
      omega
    have hreadx : readUInt32BE (x ++ t) = readUInt32BE x :=
      readUInt32BE_append x t (by omega)
    have hxtlt : ¬ (x ++ t).length < 4 + readUInt32BE x := by
      simp only [List.length_append]
      omega
    have hdrop : (x ++ t).drop 4 = x.drop 4 ++ t :=
      List.drop_append_of_le_length (by omega)
    have htake : (x.drop 4 ++ t).take (readUInt32BE x) = (x.drop 4).take (readUInt32BE x) :=
      List.take_append_of_le_length (by simp only [List.length_drop]; omega)
    have hdrop2 : (x ++ t).drop (4 + readUInt32BE x) = x.drop (4 + readUInt32BE x) ++ t :=
      List.drop_append_of_le_length (by omega)
    rw [readerLoop.eq_def]
    simp only [hreadx, dif_neg hxt4, dif_neg hxtlt, if_neg hge, hdrop, htake, hdrop2, hp]
    exact ih ms b h

theorem readerLoop_ok_append (parse : List Nat → Option Header) (t : List Nat) (buf : List Nat) :
    ∀ r, readerLoop parse (buf ++ t) = .ok r →
      ∃ ms b, readerLoop parse buf = .ok (ms, b) := by
  induction buf using readerLoop.induct parse with
  | case1 x h4 =>
    intro r _
    exact ⟨[], x, readerLoop_stop parse x (Or.inl h4)⟩
  | case2 x h4 hlt =>
    intro r _
    exact ⟨[], x, readerLoop_stop parse x (Or.inr hlt)⟩
  | case3 x h4 hlt hsm =>
    intro r h
    exfalso
    have hxt4 : ¬ (x ++ t).length < 4 := by
      simp only [List.length_append]
      omega
    have hreadx : readUInt32BE (x ++ t) = readUInt32BE x :=
      readUInt32BE_append x t (by omega)
    have hxtlt : ¬ (x ++ t).length < 4 + readUInt32BE x := by
      simp only [List.length_append]
      omega
    rw [readerLoop.eq_def] at h
    simp only [hreadx, dif_neg hxt4, dif_neg hxtlt, if_pos hsm] at h
    exact Except.noConfusion h
  | case4 x h4 hlt hge frame hh hp ih =>
    intro r h
    have hf : frame = (x.drop 4).take (readUInt32BE x) := rfl
    rw [hf] at hp
    have hxt4 : ¬ (x ++ t).length < 4 := by
      simp only [List.length_append]
      omega
    have hreadx : readUInt32BE (x ++ t) = readUInt32BE x :=
      readUInt32BE_append x t (by omega)
    have hxtlt : ¬ (x ++ t).length < 4 + readUInt32BE x := by
      simp only [List.length_append]
      omega
    have hdrop : (x ++ t).drop 4 = x.drop 4 ++ t :=
      List.drop_append_of_le_length (by omega)
    have htake : (x.drop 4 ++ t).take (readUInt32BE x) = (x.drop 4).take (readUInt32BE x) :=
      List.take_append_of_le_length (by simp only [List.length_drop]; omega)
    have hdrop2 : (x ++ t).drop (4 + readUInt32BE x) = x.drop (4 + readUInt32BE x) ++ t :=
      List.drop_append_of_le_length (by omega)
    rw [readerLoop.eq_def] at h
    simp only [hreadx, dif_neg hxt4, dif_neg hxtlt, if_neg hge, hdrop, htake, hdrop2, hp] at h
    cases hrec : readerLoop parse (x.drop (4 + readUInt32BE x) ++ t) with
    | error e =>
      rw [hrec] at h
      simp [Except.map] at h
    | ok r2 =>
      obtain ⟨ms2, b2, h2⟩ := ih r2 hrec
      refine ⟨(hh, framePayload ((x.drop 4).take (readUInt32BE x))) :: ms2, b2, ?_⟩
      rw [readerLoop.eq_def]
      simp only [dif_neg h4, dif_neg hlt, if_neg hge, hp, h2, Except.map]
  | case5 x h4 hlt hge frame hp ih =>
    intro r h
    have hf : frame = (x.drop 4).take (readUInt32BE x) := rfl
    rw [hf] at hp
    have hxt4 : ¬ (x ++ t).length < 4 := by
      simp only [List.length_append]
      omega
    have hreadx : readUInt32BE (x ++ t) = readUInt32BE x :=
      readUInt32BE_append x t (by omega)
    have hxtlt : ¬ (x ++ t).length < 4 + readUInt32BE x := by
      simp only [List.length_append]
      omega
    have hdrop : (x ++ t).drop 4 = x.drop 4 ++ t :=
      List.drop_append_of_le_length (by omega)
    have htake : (x.drop 4 ++ t).take (readUInt32BE x) = (x.drop 4).take (readUInt32BE x) :=
      List.take_append_of_le_length (by simp only [List.length_drop]; omega)
    have hdrop2 : (x ++ t).drop (4 + readUInt32BE x) = x.drop (4 + readUInt32BE x) ++ t :=
      List.drop_append_of_le_length (by omega)
    rw [readerLoop.eq_def] at h
    simp only [hreadx, dif_neg hxt4, dif_neg hxtlt, if_neg hge, hdrop, htake, hdrop2, hp] at h
    obtain ⟨ms2, b2, h2⟩ := ih r h
    refine ⟨ms2, b2, ?_⟩
    rw [readerLoop.eq_def]
    simp only [dif_neg h4, dif_neg hlt, if_neg hge, hp, h2]

theorem readerLoop_leftover (parse : List Nat → Option Header) (buf : List Nat) :
    ∀ ms b, readerLoop parse buf = .ok (ms, b) →
      b.length < 4 ∨ b.length < 4 + readUInt32BE b := by
  induction buf using readerLoop.induct parse with
  | case1 x h4 =>
    intro ms b h
    rw [readerLoop_stop parse x (Or.inl h4)] at h
    simp only [Except.ok.injEq, Prod.mk.injEq] at h
    obtain ⟨rfl, rfl⟩ := h
    exact Or.inl h4
  | case2 x h4 hlt =>
    intro ms b h
    rw [readerLoop_stop parse x (Or.inr hlt)] at h
    simp only [Except.ok.injEq, Prod.mk.injEq] at h
    obtain ⟨rfl, rfl⟩ := h
    exact Or.inr hlt
  | case3 x h4 hlt hsm =>
    intro ms b h
    rw [readerLoop.eq_def] at h
    simp only [dif_neg h4, dif_neg hlt, if_pos hsm] at h
    exact Except.noConfusion h
  | case4 x h4 hlt hge frame hh hp ih =>
    intro ms b h
    have hf : frame = (x.drop 4).take (readUInt32BE x) := rfl
    rw [hf] at hp
    rw [readerLoop.eq_def] at h
    simp only [dif_neg h4, dif_neg hlt, if_neg hge, hp] at h
    cases hrec : readerLoop parse (x.drop (4 + readUInt32BE x)) with
    | error e =>
      rw [hrec] at h
      simp [Except.map] at h
    | ok r2 =>
      obtain ⟨ms2, b2⟩ := r2
      rw [hrec] at h
      simp only [Except.map, Except.ok.injEq, Prod.mk.injEq] at h
      obtain ⟨rfl, rfl⟩ := h
      exact ih ms2 b2 hrec
  | case5 x h4 hlt hge frame hp ih =>
    intro ms b h
    have hf : frame = (x.drop 4).take (readUInt32BE x) := rfl
    rw [hf] at hp
    rw [readerLoop.eq_def] at h
    simp only [dif_neg h4, dif_neg hlt, if_neg hge, hp] at h
    exact ih ms b h

theorem feed_eq (parse : List Nat → Option Header) (chunks : List (List Nat)) :
    ∀ buf ms b,
      (buf.length < 4 ∨ buf.length < 4 + readUInt32BE buf) →
      readerLoop parse (buf ++ chunks.flatten) = .ok (ms, b) →
      feed parse buf chunks = .ok (ms, b) := by
  induction chunks with
  | nil =>
    intro buf ms b hbuf h
    rw [List.flatten_nil, List.append_nil, readerLoop_stop parse buf hbuf] at h
    simp only [Except.ok.injEq, Prod.mk.injEq] at h
    obtain ⟨rfl, rfl⟩ := h
    rfl
  | cons d ds ih =>
    intro buf ms b hbuf h
    rw [List.flatten_cons, ← List.append_assoc] at h
    obtain ⟨m1, b1, h1⟩ := readerLoop_ok_append parse ds.flatten (buf ++ d) (ms, b) h
    rw [readerLoop_restart parse ds.flatten (buf ++ d) m1 b1 h1] at h
    cases hrec : readerLoop parse (b1 ++ ds.flatten) with
    | error e =>
      rw [hrec] at h
      simp [Except.map] at h
    | ok r2 =>
      obtain ⟨ms2, b2⟩ := r2
      rw [hrec] at h
      simp only [Except.map, Except.ok.injEq, Prod.mk.injEq] at h
      obtain ⟨rfl, rfl⟩ := h
      have hleft := readerLoop_leftover parse (buf ++ d) m1 b1 h1
      have h2 := ih b1 ms2 b2 hleft hrec
      simp only [feed, h1, h2]

/-- Claim C8: encodeMessage produces [4-byte BE outer length = 4 +
headerLen + payloadLen][4-byte BE header length][header bytes][payload],
and feeding any concatenation of such frames (plus an incomplete buffered
tail) into MessageReader.push, split arbitrarily across pushes, yields
exactly the original (header, payload) sequence with the tail left
buffered.  Headers are JSON-serializable: parse recovers each from its
stringify image. -/
theorem C8_framing_round_trip (Header : Type) (stringify : Header → List Nat)
    (parse : List Nat → Option Header)
    (frames : List (Header × List Nat)) (tail : List Nat) (chunks : List (List Nat))
    (hp : ∀ f ∈ frames, parse (stringify f.1) = some f.1)
    (hlen : ∀ f ∈ frames, 4 + (stringify f.1).length + f.2.length < 4294967296)
    (htail : tail.length < 4 ∨ tail.length < 4 + readUInt32BE tail)
    (hjoin : chunks.flatten = encodeAll stringify frames ++ tail) :
    (∀ f ∈ frames,
      encodeFrame (stringify f.1) f.2 =
        writeUInt32BE (4 + (stringify f.1).length + f.2.length) ++
          (writeUInt32BE (stringify f.1).length ++ stringify f.1 ++ f.2) ∧
      readUInt32BE (encodeFrame (stringify f.1) f.2) =
        4 + (stringify f.1).length + f.2.length) ∧
    feed parse [] chunks = .ok (frames, tail) := by
  constructor
  · intro f hf
    refine ⟨encodeFrame_eq _ _, ?_⟩
    rw [encodeFrame_eq]
    exact readUInt32BE_writeUInt32BE _ _ (hlen f hf)
  · refine feed_eq parse chunks [] frames tail (Or.inl (by simp)) ?_
    rw [List.nil_append, hjoin]
    exact readerLoop_frames parse stringify frames tail hp hlen htail

/-- Witness for C8 at one concrete frame, pushed whole. -/
theorem C8_framing_round_trip_witness :
    ((∀ f ∈ ([(5, [9, 9])] : List (Nat × List Nat)),
        (fun l => l.head?) ((fun n => [n % 256]) f.1) = some f.1) ∧
      (∀ f ∈ ([(5, [9, 9])] : List (Nat × List Nat)),
        4 + ((fun n => [n % 256]) f.1).length + f.2.length < 4294967296) ∧
      (([] : List Nat).length < 4 ∨
        ([] : List Nat).length < 4 + readUInt32BE []) ∧
      ([encodeFrame [5] [9, 9]] : List (List Nat)).flatten =
        encodeAll (fun n => [n % 256]) [(5, [9, 9])] ++ []) ∧
    ((∀ f ∈ ([(5, [9, 9])] : List (Nat × List Nat)),
        encodeFrame ((fun n => [n % 256]) f.1) f.2 =
          writeUInt32BE (4 + ((fun n => [n % 256]) f.1).length + f.2.length) ++
            (writeUInt32BE ((fun n => [n % 256]) f.1).length ++
              (fun n => [n % 256]) f.1 ++ f.2) ∧
        readUInt32BE (encodeFrame ((fun n => [n % 256]) f.1) f.2) =
          4 + ((fun n => [n % 256]) f.1).length + f.2.length) ∧
      feed (fun l => l.head?) [] [encodeFrame [5] [9, 9]] =
        .ok ([(5, [9, 9])], [])) :=
  ⟨⟨by decide, by decide, by decide, by decide⟩,
    C8_framing_round_trip Nat (fun n => [n % 256]) (fun l => l.head?)
      [(5, [9, 9])] [] [encodeFrame [5] [9, 9]]
      (by decide) (by decide) (by decide) (by decide)⟩

/-- Claim C10 is refuted by the code: a push whose complete frame
declares an outer length below 4 — for instance the four bytes
00 00 00 00 — reaches frame.readUInt32BE(0) on a frame shorter than 4
bytes, which throws a RangeError instead of returning parsed messages. -/
theorem C10_push_out_of_range (Header : Type) (parse : List Nat → Option Header) :
    readerLoop parse [0, 0, 0, 0] = .error .outOfRange ∧
    feed parse [] [[0, 0, 0, 0]] = .error .outOfRange := by
  have h : readerLoop parse [0, 0, 0, 0] = .error .outOfRange := by
    rw [readerLoop.eq_def]
    have h0 : readUInt32BE [0, 0, 0, 0] = 0 := rfl
    simp [h0]
  refine ⟨h, ?_⟩
  simp only [feed, List.nil_append, h]

end Framing

end LaVak
